import Mathlib

/-
  A shallow embedding of the `arcopa` pattern-matching engine
  (src/arg_parse_base.py and src/arg_parse.py).

  Strings are modelled as lists of characters.  Every spec's `match`
  method is a Python generator producing a lazy stream of `Match`
  values; a stream either ends normally (`StopIteration`) or dies with
  an exception.  We model a fully-forced stream as `PRes`: the list of
  values yielded before termination, together with an optional terminal
  error.  The only exception the modelled code can raise is the
  `IndexError` from `Sequence.breadth_first` evaluating
  `self.sequence[0]` on an empty child list; `PErr.outOfFuel` is an
  artifact of the embedding marking that the fuel bound of the
  interpreter was reached (the Python code has unbounded recursion in
  `ZeroOrMore.traverse`, so the embedding is fuel-indexed).
-/

namespace Arcopa

abbrev Str := List Char

/-- Python values that can appear as a `Match.converted` field in the
modelled fragment: integers, strings, the `NON_CAPTURING` sentinel and
(nested) lists.  Lists are cons-encoded (`nilV`/`consV`) so that the
inductive is not nested and equality is decidable by the kernel. -/
inductive Val where
  | int (n : Int)
  | str (s : Str)
  | nonCapturing
  | nilV
  | consV (hd tl : Val)
deriving DecidableEq, Repr

/-- Build the encoded form of a Python list value. -/
def Val.ofList : List Val → Val
  | [] => Val.nilV
  | v :: vs => Val.consV v (Val.ofList vs)

/-- The `Match` dataclass: converted value, captured text, remaining text. -/
structure PMatch where
  converted : Val
  captured : Str
  rest : Str
deriving DecidableEq, Repr

/-- Terminal events of a forced match stream other than normal end. -/
inductive PErr where
  | indexError
  | outOfFuel
deriving DecidableEq, Repr

/-- A fully forced generator: the values yielded in order, then either a
normal end (`err = none`) or an exception / fuel exhaustion. -/
structure PRes (α : Type) where
  items : List α
  err : Option PErr
deriving DecidableEq, Repr

/-- Yield one value in front of a stream. -/
def pcons {α : Type} (a : α) (r : PRes α) : PRes α := ⟨a :: r.items, r.err⟩

/-- Concatenate two streams: an error in the first cuts the second off
(the Python generator dies before reaching the second part). -/
def pappend {α : Type} (a b : PRes α) : PRes α :=
  match a.err with
  | some e => ⟨a.items, some e⟩
  | none => ⟨a.items ++ b.items, b.err⟩

/-- Map over the yielded values (`Transform` / `replace_converted` style). -/
def pmap {α β : Type} (g : α → β) (r : PRes α) : PRes β := ⟨r.items.map g, r.err⟩

/-- Filter the yielded values, keeping the terminal event. -/
def pfilter {α : Type} (p : α → Bool) (r : PRes α) : PRes α := ⟨r.items.filter p, r.err⟩

/-- Lazily iterate a list of inputs (themselves produced by a stream that
ended with `e`), running `g` on each and concatenating the resulting
streams; an error in any part cuts the remainder off. -/
def pconcatMapErr {α β : Type} (g : α → PRes β) : List α → Option PErr → PRes β
  | [], e => ⟨[], e⟩
  | x :: xs, e => pappend (g x) (pconcatMapErr g xs e)

/-! ### Character classes and leaf matchers -/

/-- ASCII approximation of the regex class `\s` used by the Python code. -/
def isPySpace (c : Char) : Bool :=
  c == ' ' || c == '\t' || c == '\n' || c == '\r' || c == '\x0b' || c == '\x0c'

/-- Length of the maximal run of leading whitespace (what a greedy `\s*`
consumes when unconstrained). -/
def wsCount (s : Str) : Nat := (s.takeWhile isPySpace).length

/-- Numeric value of a digit run (what Python's `int` does to it). -/
def digitsToNat (ds : Str) : Nat := ds.foldl (fun a c => a * 10 + (c.toNat - '0'.toNat)) 0

/-- `End.match`: `re.match(r'^\s*$', string)` succeeds exactly on
all-whitespace input; the yielded Match captures the whole string. -/
def endMatch (s : Str) : List PMatch :=
  if s.all isPySpace then [⟨Val.nonCapturing, s, []⟩] else []

/-- `Exact.match`: `re.match(rf'^\s*{escaped}', string)`.  The greedy,
backtracking `\s*` consumes the largest whitespace count `k` after which
the literal follows. -/
def exactMatch (e : Str) (s : Str) : Option PMatch :=
  match ((List.range (wsCount s + 1)).reverse).find? (fun k => e.isPrefixOf (s.drop k)) with
  | none => none
  | some k => some ⟨Val.str e, s.take (k + e.length), s.drop (k + e.length)⟩

/-- `Integer.match`: `re.match(r'^\s*([+-]?[0-9]+)(?=\D|$)', string)`.
After the maximal whitespace run, an optional sign and a maximal
non-empty digit run; the lookahead is automatically satisfied after a
maximal digit run. -/
def integerMatch (s : Str) : Option PMatch :=
  match s.drop (wsCount s) with
  | [] => none
  | c :: t =>
    if c == '+' || c == '-' then
      match t.takeWhile Char.isDigit with
      | [] => none
      | d :: ds =>
        some ⟨Val.int (if c == '-' then -(Int.ofNat (digitsToNat (d :: ds)))
                else Int.ofNat (digitsToNat (d :: ds))),
          s.take (wsCount s + 1 + (d :: ds).length),
          s.drop (wsCount s + 1 + (d :: ds).length)⟩
    else
      match (c :: t).takeWhile Char.isDigit with
      | [] => none
      | d :: ds =>
        some ⟨Val.int (Int.ofNat (digitsToNat (d :: ds))),
          s.take (wsCount s + (d :: ds).length),
          s.drop (wsCount s + (d :: ds).length)⟩

/-- `Word.match`: `re.match(r'^\s*(\S+)(?=\s|$)', string)`. -/
def wordMatch (s : Str) : Option PMatch :=
  match (s.drop (wsCount s)).takeWhile (fun c => !isPySpace c) with
  | [] => none
  | d :: ds =>
    some ⟨Val.str (d :: ds), s.take (wsCount s + (d :: ds).length),
      s.drop (wsCount s + (d :: ds).length)⟩

/-- `String.match`: `for i in range(len(string)-1, 0, -1)` — every proper
non-empty prefix, longest first. -/
def stringMatch (s : Str) : List PMatch :=
  ((List.range s.length).reverse.dropLast).map
    (fun i => ⟨Val.str (s.take i), s.take i, s.drop i⟩)

/-- The `first_bad_index` variable of `StringWithout.match` after the
`enumerate` loop: index of the first excluded character, or the last
index of the string when no character is excluded.  Only used on
non-empty strings (the Python code returns early on `""`). -/
def firstBadIndex (ex : List Char) : Str → Nat
  | [] => 0
  | c :: cs =>
    if ex.contains c then 0
    else
      match cs with
      | [] => 0
      | _ :: _ => firstBadIndex ex cs + 1

/-- `StringWithout.match`: `for i in range(1, first_bad_index+1)` — the
prefixes of lengths `1 .. first_bad_index`, in increasing length order. -/
def swMatch (ex : List Char) (s : Str) : List PMatch :=
  match s with
  | [] => []
  | _ :: _ =>
    (List.range (firstBadIndex ex s)).map
      (fun j => ⟨Val.str (s.take (j + 1)), s.take (j + 1), s.drop (j + 1)⟩)

/-! ### The spec tree -/

/-- The spec fragment exercised by the claims.  `Transform`, `NamedOr`
and `NamedAnd` are not needed by any claim and are omitted. -/
inductive Spec where
  | End
  | Exact (e : Str)
  | Integer
  | Word
  | String
  | StringWithout (ex : List Char)
  | NonCapturing (sub : Spec)
  | Either (options : List Spec)
  | Sequence (children : List Spec)
  | ZeroOrMore (sub : Spec)
  | OneOrMore (sub : Spec)

/-- `Either.match`: yield every option's matches in listed order; a
stream error in one option kills the whole enumeration there. -/
def eitherGo : List (Str → PRes PMatch) → Str → PRes PMatch
  | [], _ => ⟨[], none⟩
  | f :: fs, s => pappend (f s) (eitherGo fs s)

/-- `leaf[-1].rest` for a frontier path (paths are always non-empty; the
default for `[]` is never reached). -/
def leafRest : List PMatch → Str
  | [] => []
  | [m] => m.rest
  | _ :: ms => leafRest ms

/-- `history[-1].rest if history else string`: the remainder after the
last step of a path, or the original input for the empty path. -/
def histRest (s : Str) : List PMatch → Str
  | [] => s
  | [m] => m.rest
  | _ :: ms => histRest s ms

/-- `''.join(m.captured for m in path)`. -/
def joinCaps : List PMatch → Str
  | [] => []
  | m :: ms => m.captured ++ joinCaps ms

/-- `[m.converted for m in path if m.converted is not NON_CAPTURING]`. -/
def filterConv : List PMatch → List Val
  | [] => []
  | m :: ms =>
    if m.converted = Val.nonCapturing then filterConv ms
    else m.converted :: filterConv ms

/-- Assemble the Match yielded for a complete path: used both by the
final loop of `Sequence.breadth_first` (paths are non-empty there) and
by `ZeroOrMore.match` (where the empty history keeps the whole input as
rest). -/
def assembleMatch (s : Str) (path : List PMatch) : PMatch :=
  ⟨Val.ofList (filterConv path), joinCaps path, histRest s path⟩

/-- One round of the `while` loop of `Sequence.breadth_first`: extend
every frontier path by every match of the next child against that
path's remainder (the `if m` guard of the comprehension is dropped: a
`Match` dataclass instance is always truthy).  The child's stream is
forced completely; an error in it propagates before anything is
yielded. -/
def stepLeaves (f : Str → PRes PMatch) : List (List PMatch) → Except PErr (List (List PMatch))
  | [] => Except.ok []
  | leaf :: rest =>
    let r := f (leafRest leaf)
    match r.err with
    | some e => Except.error e
    | none =>
      match stepLeaves f rest with
      | Except.error e => Except.error e
      | Except.ok tl => Except.ok (r.items.map (fun m => leaf ++ [m]) ++ tl)

/-- The whole `while current_leaves and children` loop.  (When the
frontier is empty, iterating the remaining children extends nothing and
calls no child matcher, which is observably the early exit of the
Python loop.) -/
def seqLoop : List (Str → PRes PMatch) → List (List PMatch) → Except PErr (List (List PMatch))
  | [], leaves => Except.ok leaves
  | f :: fs, leaves =>
    match stepLeaves f leaves with
    | Except.error e => Except.error e
    | Except.ok nl => seqLoop fs nl

/-- `Sequence.breadth_first`.  On an empty child list the first statement
`self.sequence[0]` raises `IndexError` before anything is yielded.  All
frontier expansion happens before the first yield, so any error during
it produces an empty stream ending in that error. -/
def breadthFirstGo : List (Str → PRes PMatch) → Str → PRes PMatch
  | [], _ => ⟨[], some PErr.indexError⟩
  | f0 :: fs, s =>
    let r0 := f0 s
    match r0.err with
    | some e => ⟨[], some e⟩
    | none =>
      match seqLoop fs (r0.items.map (fun m => [m])) with
      | Except.error e => ⟨[], some e⟩
      | Except.ok leaves => ⟨leaves.map (fun l => assembleMatch s l), none⟩

/-- `ZeroOrMore.traverse`: yield the accumulated history, then for every
match of the subspec against the current remainder recurse with the
extended history.  The Python recursion has no bound, hence the fuel. -/
def traverseGo (f : Str → PRes PMatch) : Nat → Str → List PMatch → PRes (List PMatch)
  | 0, _, _ => ⟨[], some PErr.outOfFuel⟩
  | fuel + 1, s, h =>
    pcons h (pconcatMapErr (fun m => traverseGo f fuel m.rest (h ++ [m])) (f s).items (f s).err)

/-- `Spec.match`, fuel-indexed.  Each recursion into a subspec and each
repetition of `ZeroOrMore.traverse` costs one unit of fuel; with fuel
`0` the interpreter reports `outOfFuel` (never reached for fuel larger
than tree depth plus repetition count). -/
def matchSpec : Nat → Spec → Str → PRes PMatch
  | 0, _, _ => ⟨[], some PErr.outOfFuel⟩
  | _ + 1, Spec.End, s => ⟨endMatch s, none⟩
  | _ + 1, Spec.Exact e, s => ⟨(exactMatch e s).toList, none⟩
  | _ + 1, Spec.Integer, s => ⟨(integerMatch s).toList, none⟩
  | _ + 1, Spec.Word, s => ⟨(wordMatch s).toList, none⟩
  | _ + 1, Spec.String, s => ⟨stringMatch s, none⟩
  | _ + 1, Spec.StringWithout ex, s => ⟨swMatch ex s, none⟩
  | fuel + 1, Spec.NonCapturing sub, s =>
    pmap (fun m => ⟨Val.nonCapturing, m.captured, m.rest⟩) (matchSpec fuel sub s)
  | fuel + 1, Spec.Either opts, s =>
    eitherGo (opts.map (fun o => matchSpec fuel o)) s
  | fuel + 1, Spec.Sequence children, s =>
    pappend (if children.isEmpty then ⟨[⟨Val.ofList [], [], s⟩], none⟩ else ⟨[], none⟩)
      (breadthFirstGo (children.map (fun c => matchSpec fuel c)) s)
  | fuel + 1, Spec.ZeroOrMore sub, s =>
    pmap (assembleMatch s) (traverseGo (matchSpec fuel sub) fuel s [])
  | fuel + 1, Spec.OneOrMore sub, s =>
    pfilter (fun m => !(m.converted == Val.ofList []))
      (pmap (assembleMatch s) (traverseGo (matchSpec fuel sub) fuel s []))

/-! ### The sugar layer (src/arg_parse.py) -/

/-- `ConvenientSpec`: the convenience pattern descriptions accepted by
`_convert` (mapping literals / `NamedAnd` are not needed by any claim
and are omitted; the closed inductive also makes the `TypeError` branch
unreachable). -/
inductive CSpec where
  | list (items : List CSpec)
  | strLit (t : Str)
  | intType
  | strType
  | ofSpec (sp : Spec)

/-- `spec.fmap(_convert)` where `_convert` on an existing spec node is
again `fmap(_convert)`: the structure-preserving traversal of a spec
tree.  Fuel-indexed because the recursion is not structural for the
nested inductive; with fuel `0` the node is returned unchanged (which
is also the traversal's fixed point, see `convertSpecNode_id`). -/
def convertSpecNode : Nat → Spec → Spec
  | 0, sp => sp
  | fuel + 1, Spec.NonCapturing sub => Spec.NonCapturing (convertSpecNode fuel sub)
  | fuel + 1, Spec.Either opts => Spec.Either (opts.map (fun o => convertSpecNode fuel o))
  | fuel + 1, Spec.Sequence cs => Spec.Sequence (cs.map (fun c => convertSpecNode fuel c))
  | fuel + 1, Spec.ZeroOrMore sub => Spec.ZeroOrMore (convertSpecNode fuel sub)
  | fuel + 1, Spec.OneOrMore sub => Spec.OneOrMore (convertSpecNode fuel sub)
  | _ + 1, sp => sp

/-- `_convert`, fuel-indexed (fuel `0` yields a junk value, never
reached for fuel larger than the description's depth). -/
def convert : Nat → CSpec → Spec
  | 0, _ => Spec.Sequence []
  | fuel + 1, CSpec.list items => Spec.Sequence (items.map (fun it => convert fuel it))
  | fuel + 1, CSpec.strLit t => Spec.NonCapturing (convertSpecNode fuel (Spec.Exact t))
  | _ + 1, CSpec.intType => Spec.Integer
  | _ + 1, CSpec.strType => Spec.String
  | fuel + 1, CSpec.ofSpec sp => convertSpecNode fuel sp

/-- `match`'s first step: `pattern + [End()]` (or `[pattern, End()]`),
before sugar conversion. -/
def withEnd : CSpec → CSpec
  | CSpec.list items => CSpec.list (items ++ [CSpec.ofSpec Spec.End])
  | p => CSpec.list [p, CSpec.ofSpec Spec.End]

/-- `Spec.first_match`: pull one element; `StopIteration` becomes `None`;
an exception raised before the first yield propagates. -/
def firstMatchR (r : PRes PMatch) : Except PErr (Option PMatch) :=
  match r.items with
  | m :: _ => Except.ok (some m)
  | [] =>
    match r.err with
    | some e => Except.error e
    | none => Except.ok none

/-- Possible results of the top-level `match` call, as Python values: the
absence signal `None`, a `Match` object, a bare converted value, or a
propagated exception. -/
inductive PyResult where
  | noneV
  | matchV (m : PMatch)
  | convV (v : Val)
  | excV (e : PErr)
deriving DecidableEq, Repr

/-- The top-level enumeration that `match(pattern, string)` queries. -/
def topEnum (fuel : Nat) (p : CSpec) (s : Str) : PRes PMatch :=
  matchSpec fuel (convert fuel (withEnd p)) s

/-- The top-level `match(pattern, string)` of src/arg_parse.py: it
returns `first_match`'s result, i.e. the first `Match` object itself
(or `None`). -/
def topMatch (fuel : Nat) (p : CSpec) (s : Str) : PyResult :=
  match firstMatchR (topEnum fuel p s) with
  | Except.error e => PyResult.excV e
  | Except.ok none => PyResult.noneV
  | Except.ok (some m) => PyResult.matchV m

/-- Modelled from the spec: the top-level query contract as the spec
words it — return "the first successful match's converted value", or
the absence signal.  To be compared with `topMatch`, which is what the
code does. -/
def topMatchConvertedClaim (fuel : Nat) (p : CSpec) (s : Str) : PyResult :=
  match firstMatchR (topEnum fuel p s) with
  | Except.error e => PyResult.excV e
  | Except.ok none => PyResult.noneV
  | Except.ok (some m) => PyResult.convV m.converted

/-- The sugar helper `zero_or_more` of src/arg_parse.py (it constructs a
`OneOrMore` node). -/
def zero_or_more (sp : Spec) : Spec := Spec.OneOrMore sp

/-- The sugar helper `one_or_more` of src/arg_parse.py. -/
def one_or_more (sp : Spec) : Spec := Spec.OneOrMore sp

/-! ### Claim-side definitions -/

/-- Modelled from the spec: the "standard nested-loop semantics" order
of a sequence's admissible chains — for each match of the first child
(in its own enumeration order), all chains of the remaining children on
that match's remainder, earlier children varying slower. -/
def lexChains (fuel : Nat) : List Spec → Str → List (List PMatch)
  | [], _ => [[]]
  | c :: cs, s =>
    ((matchSpec fuel c s).items).flatMap
      (fun m => (lexChains fuel cs m.rest).map (fun ch => m :: ch))

/-- `SChainE fuel cs s ms t`: `ms` is one admissible match per child of
`cs`, each child matched against the previous child's rest, starting
from `s` and ending with remainder `t`. -/
def SChainE (fuel : Nat) : List Spec → Str → List PMatch → Str → Prop
  | [], s, [], t => t = s
  | c :: cs, s, m :: ms, t => m ∈ (matchSpec fuel c s).items ∧ SChainE fuel cs m.rest ms t
  | _, _, _, _ => False

/-- The pattern of the full-pipeline scenario:
`["/", "ban", ["[", StringWithout("|"), "|", StringWithout("]"), "]"], Integer]`. -/
def banPattern : CSpec :=
  CSpec.list
    [CSpec.strLit ("/".toList), CSpec.strLit ("ban".toList),
      CSpec.list [CSpec.strLit ("[".toList), CSpec.ofSpec (Spec.StringWithout ("|".toList)),
        CSpec.strLit ("|".toList), CSpec.ofSpec (Spec.StringWithout ("]".toList)),
        CSpec.strLit ("]".toList)],
      CSpec.intType]

/-! ### Basic stream lemmas -/

lemma pappend_of_none {α : Type} {a : PRes α} (b : PRes α) (h : a.err = none) :
    pappend a b = ⟨a.items ++ b.items, b.err⟩ := by
  unfold pappend
  rw [h]

lemma pappend_of_some {α : Type} {a : PRes α} {e : PErr} (b : PRes α) (h : a.err = some e) :
    pappend a b = ⟨a.items, some e⟩ := by
  unfold pappend
  rw [h]

lemma mem_pappend {α : Type} {a b : PRes α} {m : α} (h : m ∈ (pappend a b).items) :
    m ∈ a.items ∨ m ∈ b.items := by
  cases he : a.err with
  | none =>
    rw [pappend_of_none b he] at h
    exact List.mem_append.mp h
  | some e =>
    rw [pappend_of_some b he] at h
    exact Or.inl h

lemma pappend_err_ne {α : Type} {a b : PRes α} {v : PErr}
    (ha : a.err ≠ some v) (hb : b.err ≠ some v) : (pappend a b).err ≠ some v := by
  cases he : a.err with
  | none => rw [pappend_of_none b he]; exact hb
  | some e => rw [pappend_of_some b he]; rw [he] at ha; exact ha

lemma mem_pconcatMapErr {α β : Type} {g : α → PRes β} {m : β} :
    ∀ {l : List α} {e : Option PErr}, m ∈ (pconcatMapErr g l e).items →
      ∃ x ∈ l, m ∈ (g x).items := by
  intro l
  induction l with
  | nil => intro e h; simp [pconcatMapErr] at h
  | cons x xs ih =>
    intro e h
    rcases mem_pappend h with h1 | h2
    · exact ⟨x, List.mem_cons_self x xs, h1⟩
    · rcases ih h2 with ⟨y, hy, hm⟩
      exact ⟨y, List.mem_cons_of_mem x hy, hm⟩

lemma pconcatMapErr_congr {α β : Type} {g g' : α → PRes β} :
    ∀ {l : List α} (e : Option PErr), (∀ x ∈ l, g x = g' x) →
      pconcatMapErr g l e = pconcatMapErr g' l e := by
  intro l
  induction l with
  | nil => intro e _; rfl
  | cons x xs ih =>
    intro e h
    show pappend (g x) _ = pappend (g' x) _
    rw [h x (List.mem_cons_self x xs), ih e (fun y hy => h y (List.mem_cons_of_mem x hy))]

lemma pconcatMapErr_err_ne {α β : Type} {g : α → PRes β} {v : PErr} :
    ∀ {l : List α} {e : Option PErr}, (∀ x ∈ l, (g x).err ≠ some v) → e ≠ some v →
      (pconcatMapErr g l e).err ≠ some v := by
  intro l
  induction l with
  | nil => intro e _ he; exact he
  | cons x xs ih =>
    intro e h he
    exact pappend_err_ne (h x (List.mem_cons_self x xs))
      (ih (fun y hy => h y (List.mem_cons_of_mem x hy)) he)

/-! ### Path bookkeeping lemmas -/

lemma leafRest_append_singleton (l : List PMatch) (m : PMatch) :
    leafRest (l ++ [m]) = m.rest := by
  induction l with
  | nil => rfl
  | cons a l ih =>
    cases hl : l ++ [m] with
    | nil => exact absurd hl (List.append_ne_nil_of_right_ne_nil l (by simp))
    | cons b bs =>
      show leafRest (a :: (l ++ [m])) = m.rest
      rw [hl]
      show leafRest (b :: bs) = m.rest
      rw [← hl, ih]

lemma histRest_append_singleton (s : Str) (l : List PMatch) (m : PMatch) :
    histRest s (l ++ [m]) = m.rest := by
  induction l with
  | nil => rfl
  | cons a l ih =>
    cases hl : l ++ [m] with
    | nil => exact absurd hl (List.append_ne_nil_of_right_ne_nil l (by simp))
    | cons b bs =>
      show histRest s (a :: (l ++ [m])) = m.rest
      rw [hl]
      show histRest s (b :: bs) = m.rest
      rw [← hl, ih]

lemma histRest_eq_leafRest (s : Str) : ∀ {l : List PMatch}, l ≠ [] → histRest s l = leafRest l := by
  intro l
  induction l with
  | nil => intro h; exact absurd rfl h
  | cons a l ih =>
    intro _
    cases l with
    | nil => rfl
    | cons b bs =>
      show histRest s (b :: bs) = leafRest (b :: bs)
      exact ih (by simp)

lemma joinCaps_append (l₁ l₂ : List PMatch) :
    joinCaps (l₁ ++ l₂) = joinCaps l₁ ++ joinCaps l₂ := by
  induction l₁ with
  | nil => rfl
  | cons a l ih =>
    show a.captured ++ joinCaps (l ++ l₂) = (a.captured ++ joinCaps l) ++ joinCaps l₂
    rw [ih, List.append_assoc]

lemma joinCaps_singleton (m : PMatch) : joinCaps [m] = m.captured := by
  show m.captured ++ [] = m.captured
  exact List.append_nil _

/-! ### Unfolding lemmas for the interpreter -/

lemma matchSpec_zero (sp : Spec) (s : Str) :
    matchSpec 0 sp s = ⟨[], some PErr.outOfFuel⟩ := rfl

lemma matchSpec_end (fuel : Nat) (s : Str) :
    matchSpec (fuel + 1) Spec.End s = ⟨endMatch s, none⟩ := rfl

lemma matchSpec_exact (fuel : Nat) (e : Str) (s : Str) :
    matchSpec (fuel + 1) (Spec.Exact e) s = ⟨(exactMatch e s).toList, none⟩ := rfl

lemma matchSpec_integer (fuel : Nat) (s : Str) :
    matchSpec (fuel + 1) Spec.Integer s = ⟨(integerMatch s).toList, none⟩ := rfl

lemma matchSpec_word (fuel : Nat) (s : Str) :
    matchSpec (fuel + 1) Spec.Word s = ⟨(wordMatch s).toList, none⟩ := rfl

lemma matchSpec_string (fuel : Nat) (s : Str) :
    matchSpec (fuel + 1) Spec.String s = ⟨stringMatch s, none⟩ := rfl

lemma matchSpec_stringWithout (fuel : Nat) (ex : List Char) (s : Str) :
    matchSpec (fuel + 1) (Spec.StringWithout ex) s = ⟨swMatch ex s, none⟩ := rfl

lemma matchSpec_nonCapturing (fuel : Nat) (sub : Spec) (s : Str) :
    matchSpec (fuel + 1) (Spec.NonCapturing sub) s
      = pmap (fun m => ⟨Val.nonCapturing, m.captured, m.rest⟩) (matchSpec fuel sub s) := rfl

lemma matchSpec_either (fuel : Nat) (opts : List Spec) (s : Str) :
    matchSpec (fuel + 1) (Spec.Either opts) s
      = eitherGo (opts.map (fun o => matchSpec fuel o)) s := rfl

lemma matchSpec_sequence (fuel : Nat) (children : List Spec) (s : Str) :
    matchSpec (fuel + 1) (Spec.Sequence children) s
      = pappend (if children.isEmpty then ⟨[⟨Val.ofList [], [], s⟩], none⟩ else ⟨[], none⟩)
          (breadthFirstGo (children.map (fun c => matchSpec fuel c)) s) := rfl

lemma matchSpec_zeroOrMore (fuel : Nat) (sub : Spec) (s : Str) :
    matchSpec (fuel + 1) (Spec.ZeroOrMore sub) s
      = pmap (assembleMatch s) (traverseGo (matchSpec fuel sub) fuel s []) := rfl

lemma matchSpec_oneOrMore (fuel : Nat) (sub : Spec) (s : Str) :
    matchSpec (fuel + 1) (Spec.OneOrMore sub) s
      = pfilter (fun m => !(m.converted == Val.ofList []))
          (pmap (assembleMatch s) (traverseGo (matchSpec fuel sub) fuel s [])) := rfl

lemma traverseGo_succ (f : Str → PRes PMatch) (fuel : Nat) (s : Str) (h : List PMatch) :
    traverseGo f (fuel + 1) s h
      = pcons h (pconcatMapErr (fun m => traverseGo f fuel m.rest (h ++ [m]))
          (f s).items (f s).err) := rfl

/-! ### C2: Sequence with an empty child list -/

/-- C2: the claim says `Sequence([]).match(s)` yields exactly one result,
`Match([], "", s)`, and then ends normally.  The code does yield exactly
that one result, but the generator then falls through to
`breadth_first`, whose first statement `self.sequence[0]` raises
`IndexError`: the stream ends with an exception instead of a normal
`StopIteration`.  This theorem evaluates the modelled code and exhibits
both the single yielded result and the terminal `IndexError`. -/
theorem c2_empty_sequence_raises (fuel : Nat) (s : Str) :
    matchSpec (fuel + 1) (Spec.Sequence []) s
      = ⟨[⟨Val.ofList [], [], s⟩], some PErr.indexError⟩ := rfl

/-! ### C1: StringWithout -/

lemma firstBadIndex_singleton (ex : List Char) (c : Char) :
    firstBadIndex ex [c] = 0 := by
  unfold firstBadIndex
  split <;> rfl

lemma firstBadIndex_of_mem {ex : List Char} {c : Char} (cs : Str) (h : c ∈ ex) :
    firstBadIndex ex (c :: cs) = 0 := by
  cases cs with
  | nil => exact firstBadIndex_singleton ex c
  | cons d ds =>
    show (if ex.contains c = true then 0 else firstBadIndex ex (d :: ds) + 1) = 0
    exact if_pos (List.elem_eq_true_of_mem h)

lemma firstBadIndex_cons_cons {ex : List Char} {c : Char} (d : Char) (ds : Str) (h : c ∉ ex) :
    firstBadIndex ex (c :: d :: ds) = firstBadIndex ex (d :: ds) + 1 := by
  have hcond : ¬ (ex.contains c = true) := fun hx => h (List.elem_iff.mp hx)
  show (if ex.contains c = true then 0 else firstBadIndex ex (d :: ds) + 1)
      = firstBadIndex ex (d :: ds) + 1
  exact if_neg hcond

lemma firstBadIndex_lt_length (ex : List Char) :
    ∀ {s : Str}, s ≠ [] → firstBadIndex ex s < s.length := by
  intro s
  induction s with
  | nil => intro h; exact absurd rfl h
  | cons c cs ih =>
    intro _
    by_cases hb : c ∈ ex
    · rw [firstBadIndex_of_mem cs hb]
      simp
    · cases cs with
      | nil =>
        rw [firstBadIndex_singleton]
        simp
      | cons d ds =>
        have hlt := ih (by simp)
        rw [firstBadIndex_cons_cons d ds hb]
        simp only [List.length_cons] at hlt ⊢
        omega

lemma lt_firstBadIndex_iff (ex : List Char) :
    ∀ {s : Str}, s ≠ [] → ∀ j : Nat,
      (j < firstBadIndex ex s ↔
        (j + 1 < s.length ∧ ∀ x ∈ s.take (j + 1), x ∉ ex)) := by
  intro s
  induction s with
  | nil => intro h; exact absurd rfl h
  | cons c cs ih =>
    intro _ j
    by_cases hb : c ∈ ex
    · rw [firstBadIndex_of_mem cs hb]
      simp only [Nat.not_lt_zero, false_iff, List.take_succ_cons]
      rintro ⟨h1, h2⟩
      exact h2 c (List.mem_cons_self c _) hb
    · cases cs with
      | nil =>
        rw [firstBadIndex_singleton]
        simp only [Nat.not_lt_zero, false_iff, List.length_singleton]
        rintro ⟨h1, h2⟩
        omega
      | cons d ds =>
        rw [firstBadIndex_cons_cons d ds hb]
        cases j with
        | zero =>
          simp only [Nat.zero_add, List.take_succ_cons, List.take_zero, List.length_cons]
          constructor
          · intro _
            refine ⟨by omega, ?_⟩
            intro x hx
            rcases List.mem_singleton.mp hx with rfl
            exact hb
          · intro _
            omega
        | succ k =>
          have hk := ih (by simp) k
          simp only [List.length_cons] at hk
          simp only [List.take_succ_cons, List.length_cons]
          constructor
          · intro h
            have hlt : k < firstBadIndex ex (d :: ds) := by omega
            rcases hk.mp hlt with ⟨h1, h2⟩
            refine ⟨by omega, ?_⟩
            intro x hx
            rcases List.mem_cons.mp hx with rfl | hx
            · exact hb
            · exact h2 x hx
          · rintro ⟨h1, h2⟩
            have hlt : k < firstBadIndex ex (d :: ds) :=
              hk.mpr ⟨by omega, fun x hx => h2 x (List.mem_cons_of_mem c hx)⟩
            omega

lemma pairwise_map_range {R : PMatch → PMatch → Prop} (f : Nat → PMatch) :
    ∀ n : Nat, (∀ j1 j2, j1 < j2 → j2 < n → R (f j1) (f j2)) →
      ((List.range n).map f).Pairwise R := by
  intro n
  induction n with
  | zero => intro _; simp
  | succ n ih =>
    intro h
    rw [List.range_succ, List.map_append]
    refine List.pairwise_append.mpr ⟨ih (fun j1 j2 h1 h2 => h j1 j2 h1 (Nat.lt_succ_of_lt h2)),
      by simp, ?_⟩
    intro a ha b hb
    simp only [List.map_cons, List.map_nil, List.mem_singleton] at hb
    subst hb
    rcases List.mem_map.mp ha with ⟨j, hj, rfl⟩
    exact h j n (List.mem_range.mp hj) (Nat.lt_succ_self n)

/-- C1 (amended): `StringWithout(E).match(s)` yields exactly one `Match`
per non-empty PROPER prefix of `s` consisting entirely of characters
not in `E` (the full string is never yielded, even when no character of
`s` is excluded), enumerated from SHORTEST to LONGEST; each such Match
carries the prefix as converted value and captured text and the
corresponding suffix as rest; there is no match when `s` is empty or
its first character is in `E` (these cases admit no such prefix). -/
theorem c1_stringWithout_amended (fuel : Nat) (ex : List Char) (s : Str) :
    (matchSpec (fuel + 1) (Spec.StringWithout ex) s).err = none ∧
    (∀ m : PMatch, m ∈ (matchSpec (fuel + 1) (Spec.StringWithout ex) s).items ↔
      ∃ i, 1 ≤ i ∧ i < s.length ∧ (∀ x ∈ s.take i, x ∉ ex) ∧
        m = ⟨Val.str (s.take i), s.take i, s.drop i⟩) ∧
    ((matchSpec (fuel + 1) (Spec.StringWithout ex) s).items).Pairwise
      (fun m₁ m₂ => m₁.captured.length < m₂.captured.length) := by
  rw [matchSpec_stringWithout]
  refine ⟨rfl, ?_, ?_⟩
  · intro m
    cases s with
    | nil =>
      simp [swMatch]
    | cons c cs =>
      show m ∈ (List.range (firstBadIndex ex (c :: cs))).map _ ↔ _
      rw [List.mem_map]
      constructor
      · rintro ⟨j, hj, rfl⟩
        rw [List.mem_range] at hj
        rcases (lt_firstBadIndex_iff ex (by simp) j).mp hj with ⟨h1, h2⟩
        exact ⟨j + 1, by omega, h1, h2, rfl⟩
      · rintro ⟨i, h1, h2, h3, rfl⟩
        rcases Nat.exists_eq_add_of_le h1 with ⟨j, rfl⟩
        refine ⟨j, ?_, by rw [Nat.add_comm 1 j]⟩
        rw [List.mem_range]
        apply (lt_firstBadIndex_iff ex (by simp) j).mpr
        rw [Nat.add_comm 1 j] at h2 h3
        exact ⟨h2, h3⟩
  · cases s with
    | nil => simp [swMatch]
    | cons c cs =>
      apply pairwise_map_range
      intro j1 j2 hlt hj2
      have hfb := firstBadIndex_lt_length ex (s := c :: cs) (by simp)
      show ((c :: cs).take (j1 + 1)).length < ((c :: cs).take (j2 + 1)).length
      rw [List.length_take, List.length_take]
      omega

/-- C1 counterexample: the claim (with the spec's literal scenario) says
`StringWithout({"]"}).match("ab]c")` enumerates longest first, yielding
`("ab","ab","]c")` before `("a","a","b]c")`.  The code iterates
`range(1, first_bad_index+1)`, shortest first: the first yielded Match
is `("a","a","b]c")`. -/
theorem c1_stringWithout_counterexample :
    (matchSpec 1 (Spec.StringWithout [']']) ("ab]c".toList)).items.head?
        = some ⟨Val.str ("a".toList), "a".toList, "b]c".toList⟩ ∧
    (matchSpec 1 (Spec.StringWithout [']']) ("ab]c".toList)).items.head?
        ≠ some ⟨Val.str ("ab".toList), "ab".toList, "]c".toList⟩ := by
  constructor
  · decide
  · decide

/-! ### C5 / C10: OneOrMore and the zero_or_more sugar helper -/

lemma mem_oneOrMore_ne_nil (fuel : Nat) (X : Spec) (s : Str) :
    ∀ m ∈ (matchSpec fuel (Spec.OneOrMore X) s).items, ¬ m.converted = Val.ofList [] := by
  cases fuel with
  | zero => intro m hm; simp [matchSpec_zero] at hm
  | succ fuel =>
    intro m hm
    rw [matchSpec_oneOrMore] at hm
    have hf := (List.mem_filter.mp hm).2
    intro hc
    rw [hc] at hf
    simp at hf

/-- C5 (amended): `OneOrMore(X).match(s)` yields exactly the results of
`ZeroOrMore(X).match(s)`, in the same order, with every result whose
converted value is the empty list removed — this removes the
zero-repetition result, but it also removes any result built from one
or more repetitions all of whose converted values are the
non-capturing marker; `OneOrMore` never yields an empty-list converted
value. -/
theorem c5_one_or_more_amended (fuel : Nat) (X : Spec) (s : Str) :
    matchSpec (fuel + 1) (Spec.OneOrMore X) s
      = pfilter (fun m => !(m.converted == Val.ofList []))
          (matchSpec (fuel + 1) (Spec.ZeroOrMore X) s) ∧
    ((matchSpec (fuel + 1) (Spec.OneOrMore X) s).items).Sublist
      ((matchSpec (fuel + 1) (Spec.ZeroOrMore X) s).items) ∧
    (∀ m : PMatch, m ∈ (matchSpec (fuel + 1) (Spec.OneOrMore X) s).items ↔
      (m ∈ (matchSpec (fuel + 1) (Spec.ZeroOrMore X) s).items ∧
        ¬ m.converted = Val.ofList [])) := by
  refine ⟨rfl, ?_, ?_⟩
  · rw [matchSpec_oneOrMore, matchSpec_zeroOrMore]
    exact List.filter_sublist _
  · intro m
    rw [matchSpec_oneOrMore, matchSpec_zeroOrMore]
    show m ∈ List.filter _ _ ↔ _
    rw [List.mem_filter]
    constructor
    · rintro ⟨h1, h2⟩
      refine ⟨h1, ?_⟩
      intro hc
      rw [hc] at h2
      simp at h2
    · rintro ⟨h1, h2⟩
      refine ⟨h1, ?_⟩
      simp [h2]

/-- C5 counterexample: with `X = NonCapturing(Exact("a"))` and input
`"a"`, `ZeroOrMore(X)` yields two results (the zero-repetition one and
a one-repetition one, both with converted value `[]` because the single
child is non-capturing), and `OneOrMore(X)` yields nothing at all: it
is not "ZeroOrMore minus only the zero-repetition result", and a result
arising from one repetition of `X` is dropped. -/
theorem c5_one_or_more_counterexample :
    (matchSpec 5 (Spec.OneOrMore (Spec.NonCapturing (Spec.Exact ("a".toList))))
        ("a".toList)).items = [] ∧
    (matchSpec 5 (Spec.ZeroOrMore (Spec.NonCapturing (Spec.Exact ("a".toList))))
        ("a".toList)).items
      = [⟨Val.ofList [], [], "a".toList⟩, ⟨Val.ofList [], "a".toList, []⟩] ∧
    (matchSpec 5 (Spec.OneOrMore (Spec.NonCapturing (Spec.Exact ("a".toList))))
        ("a".toList)).items
      ≠ ((matchSpec 5 (Spec.ZeroOrMore (Spec.NonCapturing (Spec.Exact ("a".toList))))
        ("a".toList)).items).drop 1 := by
  refine ⟨by decide, by decide, by decide⟩

/-- C10: the sugar helper `zero_or_more` of src/arg_parse.py constructs
a `OneOrMore` node, so `zero_or_more(X).match(s)` yields exactly the
matches of `one_or_more(X).match(s)`; in particular it never yields a
result whose converted value is the empty list, so the zero-repetition
result (`converted == []`, `rest == s`) is never produced. -/
theorem c10_zero_or_more_builds_one_or_more (fuel : Nat) (X : Spec) (s : Str) :
    matchSpec fuel (zero_or_more X) s = matchSpec fuel (one_or_more X) s ∧
    ∀ m ∈ (matchSpec fuel (zero_or_more X) s).items, ¬ m.converted = Val.ofList [] := by
  exact ⟨rfl, mem_oneOrMore_ne_nil fuel X s⟩

/-! ### C3: the top-level match contract -/

/-- C3 (amended): the top-level `match(patternDescription, inputString)`
appends an `End` sentinel to the pattern, sugar-converts it, and
returns the FIRST `Match` object of the resulting enumeration itself
(converted value, captured text and rest together), `None` when the
enumeration is empty, and it propagates an exception raised before the
first yield; it never returns a bare converted value. -/
theorem c3_top_match_amended (fuel : Nat) (p : CSpec) (s : Str) :
    (topMatch fuel p s = PyResult.noneV ↔
      (topEnum fuel p s).items = [] ∧ (topEnum fuel p s).err = none) ∧
    (∀ m : PMatch, topMatch fuel p s = PyResult.matchV m ↔
      (topEnum fuel p s).items.head? = some m) ∧
    (∀ e : PErr, topMatch fuel p s = PyResult.excV e ↔
      (topEnum fuel p s).items = [] ∧ (topEnum fuel p s).err = some e) ∧
    (∀ v : Val, ¬ topMatch fuel p s = PyResult.convV v) := by
  unfold topMatch firstMatchR
  cases hitems : (topEnum fuel p s).items with
  | cons m ms => simp
  | nil =>
    cases herr : (topEnum fuel p s).err with
    | none => simp
    | some e => simp

/-- C3 counterexample: for the pattern description `int` and the input
`"42"`, the code returns the full `Match` object
`Match([42], "42", "")`, not the bare converted value `[42]` that the
claim predicts (`topMatchConvertedClaim` is the claim's reading of the
contract). -/
theorem c3_top_match_counterexample :
    topMatch 3 CSpec.intType ("42".toList)
        = PyResult.matchV ⟨Val.ofList [Val.int 42], "42".toList, []⟩ ∧
    topMatch 3 CSpec.intType ("42".toList)
        ≠ topMatchConvertedClaim 3 CSpec.intType ("42".toList) ∧
    topMatchConvertedClaim 3 CSpec.intType ("42".toList)
        = PyResult.convV (Val.ofList [Val.int 42]) := by
  refine ⟨by decide, by decide, by decide⟩

/-! ### C4: the full /ban pipeline -/

set_option maxHeartbeats 4000000 in
/-- C4 counterexample: the first (and only) match of the pipeline has
converted value `[["hello","world"], 42]` — the bracketed sub-pattern
contributes one NESTED list element — which is not the flat list
`["hello","world",42]` stated by the claim. -/
theorem c4_full_pipeline_counterexample :
    topMatch 7 banPattern ("/ban [hello|world] 42".toList)
      = PyResult.matchV
          ⟨Val.ofList [Val.ofList [Val.str ("hello".toList), Val.str ("world".toList)],
              Val.int 42],
            "/ban [hello|world] 42".toList, []⟩ ∧
    Val.ofList [Val.ofList [Val.str ("hello".toList), Val.str ("world".toList)], Val.int 42]
      ≠ Val.ofList [Val.str ("hello".toList), Val.str ("world".toList), Val.int 42] := by
  refine ⟨by decide, by decide⟩

set_option maxHeartbeats 4000000 in
/-- C4 (amended): matched by the top-level `match` against
`"/ban [hello|world] 42"`, the pipeline's first match is the `Match`
whose converted value is the nested list `[["hello","world"], 42]`,
whose captured text is the whole input and whose rest is empty. -/
theorem c4_full_pipeline_amended :
    topMatch 7 banPattern ("/ban [hello|world] 42".toList)
      = PyResult.matchV
          ⟨Val.ofList [Val.ofList [Val.str ("hello".toList), Val.str ("world".toList)],
              Val.int 42],
            "/ban [hello|world] 42".toList, []⟩ := by
  decide

/-! ### C7: captured ++ rest partitions the input -/

lemma mem_option_toList {α : Type} {o : Option α} {a : α} (h : a ∈ o.toList) : o = some a := by
  cases o with
  | none => simp at h
  | some b =>
    simp only [Option.toList_some, List.mem_singleton] at h
    rw [h]

lemma endMatch_part {s : Str} {m : PMatch} (h : m ∈ endMatch s) :
    m.captured ++ m.rest = s := by
  unfold endMatch at h
  split at h
  · rcases List.mem_singleton.mp h with rfl
    exact List.append_nil s
  · simp at h

lemma exactMatch_part {e s : Str} {m : PMatch} (h : exactMatch e s = some m) :
    m.captured ++ m.rest = s := by
  unfold exactMatch at h
  split at h
  · exact absurd h (by simp)
  · rcases Option.some.inj h with rfl
    exact List.take_append_drop _ s

lemma integerMatch_part {s : Str} {m : PMatch} (h : integerMatch s = some m) :
    m.captured ++ m.rest = s := by
  unfold integerMatch at h
  split at h
  · exact absurd h (by simp)
  · split at h
    · split at h
      · exact absurd h (by simp)
      · rcases Option.some.inj h with rfl
        exact List.take_append_drop _ s
    · split at h
      · exact absurd h (by simp)
      · rcases Option.some.inj h with rfl
        exact List.take_append_drop _ s

lemma wordMatch_part {s : Str} {m : PMatch} (h : wordMatch s = some m) :
    m.captured ++ m.rest = s := by
  unfold wordMatch at h
  split at h
  · exact absurd h (by simp)
  · rcases Option.some.inj h with rfl
    exact List.take_append_drop _ s

lemma integerMatch_rest_length {s : Str} {m : PMatch} (h : integerMatch s = some m) :
    m.rest.length < s.length := by
  have hpart := integerMatch_part h
  have hcap : m.captured.length ≠ 0 := by
    unfold integerMatch at h
    split at h
    · exact absurd h (by simp)
    · rename_i heq
      have hlen : wsCount s ≤ s.length := by
        have := List.length_drop (wsCount s) s
        have h2 : (s.drop (wsCount s)).length ≠ 0 := by rw [heq]; simp
        omega
      split at h
      · split at h
        · exact absurd h (by simp)
        · rcases Option.some.inj h with rfl
          have hd : s.drop (wsCount s) ≠ [] := by rw [heq]; simp
          have : s.length ≠ 0 := by
            intro h0
            rw [List.eq_nil_of_length_eq_zero h0] at hd
            simp at hd
          simp only [List.length_take, List.length_cons]
          omega
      · split at h
        · exact absurd h (by simp)
        · rcases Option.some.inj h with rfl
          have hd : s.drop (wsCount s) ≠ [] := by rw [heq]; simp
          have : s.length ≠ 0 := by
            intro h0
            rw [List.eq_nil_of_length_eq_zero h0] at hd
            simp at hd
          simp only [List.length_take, List.length_cons]
          omega
  have := congrArg List.length hpart
  rw [List.length_append] at this
  omega

lemma stringMatch_part {s : Str} {m : PMatch} (h : m ∈ stringMatch s) :
    m.captured ++ m.rest = s := by
  unfold stringMatch at h
  rcases List.mem_map.mp h with ⟨i, _, rfl⟩
  exact List.take_append_drop i s

lemma swMatch_part {ex : List Char} {s : Str} {m : PMatch} (h : m ∈ swMatch ex s) :
    m.captured ++ m.rest = s := by
  unfold swMatch at h
  split at h
  · simp at h
  · rcases List.mem_map.mp h with ⟨j, _, rfl⟩
    exact List.take_append_drop (j + 1) _

lemma eitherGo_part :
    ∀ {fs : List (Str → PRes PMatch)} {s : Str},
      (∀ f ∈ fs, ∀ s' m, m ∈ (f s').items → m.captured ++ m.rest = s') →
      ∀ m ∈ (eitherGo fs s).items, m.captured ++ m.rest = s := by
  intro fs
  induction fs with
  | nil => intro s _ m hm; simp [eitherGo] at hm
  | cons f fs ih =>
    intro s HF m hm
    rcases mem_pappend hm with h1 | h2
    · exact HF f (List.mem_cons_self f fs) s m h1
    · exact ih (fun g hg => HF g (List.mem_cons_of_mem f hg)) m h2

lemma stepLeaves_part {f : Str → PRes PMatch} {s : Str}
    (Hf : ∀ s' m, m ∈ (f s').items → m.captured ++ m.rest = s') :
    ∀ {leaves nl : List (List PMatch)},
      (∀ l ∈ leaves, l ≠ [] ∧ joinCaps l ++ leafRest l = s) →
      stepLeaves f leaves = Except.ok nl →
      ∀ l' ∈ nl, l' ≠ [] ∧ joinCaps l' ++ leafRest l' = s := by
  intro leaves
  induction leaves with
  | nil =>
    intro nl _ hstep l' hl'
    simp only [stepLeaves] at hstep
    cases hstep
    simp at hl'
  | cons leaf rest ih =>
    intro nl hinv hstep l' hl'
    simp only [stepLeaves] at hstep
    split at hstep
    · cases hstep
    · split at hstep
      · cases hstep
      · cases hstep
        rcases List.mem_append.mp hl' with h1 | h2
        · rcases List.mem_map.mp h1 with ⟨m, hm, rfl⟩
          rcases hinv leaf (List.mem_cons_self leaf rest) with ⟨_, hpart⟩
          refine ⟨by simp, ?_⟩
          rw [joinCaps_append, joinCaps_singleton, leafRest_append_singleton,
            List.append_assoc, Hf (leafRest leaf) m hm, hpart]
        · exact ih (fun l hl => hinv l (List.mem_cons_of_mem leaf hl)) (by assumption) l' h2

lemma seqLoop_part {s : Str} :
    ∀ {fs : List (Str → PRes PMatch)},
      (∀ f ∈ fs, ∀ s' m, m ∈ (f s').items → m.captured ++ m.rest = s') →
      ∀ {leaves res : List (List PMatch)},
        (∀ l ∈ leaves, l ≠ [] ∧ joinCaps l ++ leafRest l = s) →
        seqLoop fs leaves = Except.ok res →
        ∀ l' ∈ res, l' ≠ [] ∧ joinCaps l' ++ leafRest l' = s := by
  intro fs
  induction fs with
  | nil =>
    intro _ leaves res hinv hstep
    simp only [seqLoop] at hstep
    cases hstep
    exact hinv
  | cons f fs ih =>
    intro HF leaves res hinv hstep
    simp only [seqLoop] at hstep
    split at hstep
    · cases hstep
    · exact ih (fun g hg => HF g (List.mem_cons_of_mem f hg))
        (stepLeaves_part (HF f (List.mem_cons_self f fs)) hinv (by assumption)) hstep

lemma breadthFirstGo_part :
    ∀ {fs : List (Str → PRes PMatch)} {s : Str},
      (∀ f ∈ fs, ∀ s' m, m ∈ (f s').items → m.captured ++ m.rest = s') →
      ∀ m ∈ (breadthFirstGo fs s).items, m.captured ++ m.rest = s := by
  intro fs s HF m hm
  cases fs with
  | nil => simp [breadthFirstGo] at hm
  | cons f0 fs' =>
    simp only [breadthFirstGo] at hm
    split at hm
    · simp at hm
    · split at hm
      · simp at hm
      · rcases List.mem_map.mp hm with ⟨l, hl, rfl⟩
        have hinit : ∀ l₀ ∈ (f0 s).items.map (fun m => [m]),
            l₀ ≠ [] ∧ joinCaps l₀ ++ leafRest l₀ = s := by
          intro l₀ hl₀
          rcases List.mem_map.mp hl₀ with ⟨m₀, hm₀, rfl⟩
          refine ⟨by simp, ?_⟩
          rw [joinCaps_singleton]
          show m₀.captured ++ m₀.rest = s
          exact HF f0 (List.mem_cons_self f0 fs') s m₀ hm₀
        rcases seqLoop_part (fun g hg => HF g (List.mem_cons_of_mem f0 hg)) hinit
          (by assumption) l hl with ⟨hne, hpart⟩
        show joinCaps l ++ histRest s l = s
        rw [histRest_eq_leafRest s hne]
        exact hpart

lemma traverseGo_part {f : Str → PRes PMatch}
    (Hf : ∀ s' m, m ∈ (f s').items → m.captured ++ m.rest = s') :
    ∀ (fuel : Nat) (t0 t : Str) (h : List PMatch),
      joinCaps h ++ t = t0 → histRest t0 h = t →
      ∀ hist ∈ (traverseGo f fuel t h).items,
        joinCaps hist ++ histRest t0 hist = t0 := by
  intro fuel
  induction fuel with
  | zero => intro t0 t h _ _ hist hh; simp [traverseGo] at hh
  | succ fuel ih =>
    intro t0 t h hcap hrest hist hh
    rw [traverseGo_succ] at hh
    simp only [pcons] at hh
    rcases List.mem_cons.mp hh with rfl | hh
    · rw [hrest]
      exact hcap
    · rcases mem_pconcatMapErr hh with ⟨m, hm, hmem⟩
      refine ih t0 m.rest (h ++ [m]) ?_ ?_ hist hmem
      · rw [joinCaps_append, joinCaps_singleton, List.append_assoc, Hf t m hm]
        exact hcap
      · exact histRest_append_singleton t0 h m

/-- C7: for every spec of the modelled fragment and every input string,
every Match yielded by `spec.match(s)` satisfies
`captured ++ rest = s`: the captured prefix and the remaining suffix
partition the input passed to that invocation. -/
theorem c7_captured_rest_partition :
    ∀ (fuel : Nat) (sp : Spec) (s : Str),
      ∀ m ∈ (matchSpec fuel sp s).items, m.captured ++ m.rest = s := by
  intro fuel
  induction fuel with
  | zero => intro sp s m hm; simp [matchSpec_zero] at hm
  | succ fuel ih =>
    intro sp s m hm
    cases sp with
    | End =>
      rw [matchSpec_end] at hm
      exact endMatch_part hm
    | Exact e =>
      rw [matchSpec_exact] at hm
      exact exactMatch_part (mem_option_toList hm)
    | Integer =>
      rw [matchSpec_integer] at hm
      exact integerMatch_part (mem_option_toList hm)
    | Word =>
      rw [matchSpec_word] at hm
      exact wordMatch_part (mem_option_toList hm)
    | String =>
      rw [matchSpec_string] at hm
      exact stringMatch_part hm
    | StringWithout ex =>
      rw [matchSpec_stringWithout] at hm
      exact swMatch_part hm
    | NonCapturing sub =>
      rw [matchSpec_nonCapturing] at hm
      rcases List.mem_map.mp hm with ⟨m', hm', rfl⟩
      exact ih sub s m' hm'
    | Either opts =>
      rw [matchSpec_either] at hm
      refine eitherGo_part ?_ m hm
      intro f hf s' m' hm'
      rcases List.mem_map.mp hf with ⟨o, _, rfl⟩
      exact ih o s' m' hm'
    | Sequence children =>
      rw [matchSpec_sequence] at hm
      rcases mem_pappend hm with h1 | h2
      · cases children with
        | nil =>
          simp only [List.isEmpty_nil, if_true] at h1
          rcases List.mem_singleton.mp h1 with rfl
          rfl
        | cons c cs => simp at h1
      · refine breadthFirstGo_part ?_ m h2
        intro f hf s' m' hm'
        rcases List.mem_map.mp hf with ⟨c, _, rfl⟩
        exact ih c s' m' hm'
    | ZeroOrMore sub =>
      rw [matchSpec_zeroOrMore] at hm
      rcases List.mem_map.mp hm with ⟨hist, hh, rfl⟩
      exact traverseGo_part (fun s' m' => ih sub s' m') fuel s s [] rfl rfl hist hh
    | OneOrMore sub =>
      rw [matchSpec_oneOrMore] at hm
      have hm2 := (List.mem_filter.mp hm).1
      rcases List.mem_map.mp hm2 with ⟨hist, hh, rfl⟩
      exact traverseGo_part (fun s' m' => ih sub s' m') fuel s s [] rfl rfl hist hh

/-- C7 witness: the partition property instantiated at `Integer` on
`"42 rest"` and its first yielded Match. -/
theorem c7_witness :
    (⟨Val.int 42, "42".toList, " rest".toList⟩ : PMatch)
        ∈ (matchSpec 1 Spec.Integer ("42 rest".toList)).items ∧
    (⟨Val.int 42, "42".toList, " rest".toList⟩ : PMatch).captured
        ++ (⟨Val.int 42, "42".toList, " rest".toList⟩ : PMatch).rest
      = "42 rest".toList :=
  ⟨by decide, c7_captured_rest_partition 1 Spec.Integer ("42 rest".toList) _ (by decide)⟩

/-! ### C6: Sequence results come from one admissible match per child -/

lemma SChainE_snoc (fuel : Nat) (c : Spec) :
    ∀ (pre : List Spec) (s : Str) (l : List PMatch) (t : Str) (m : PMatch),
      SChainE fuel pre s l t → m ∈ (matchSpec fuel c t).items →
      SChainE fuel (pre ++ [c]) s (l ++ [m]) m.rest := by
  intro pre
  induction pre with
  | nil =>
    intro s l t m hch hm
    cases l with
    | nil =>
      have ht : t = s := hch
      subst ht
      exact ⟨hm, rfl⟩
    | cons a l => exact False.elim hch
  | cons c0 pre ih =>
    intro s l t m hch hm
    cases l with
    | nil => exact False.elim hch
    | cons a l =>
      rcases hch with ⟨ha, hrest⟩
      exact ⟨ha, ih a.rest l t m hrest hm⟩

lemma stepLeaves_mem {f : Str → PRes PMatch} :
    ∀ {leaves nl : List (List PMatch)}, stepLeaves f leaves = Except.ok nl →
      ∀ l' ∈ nl, ∃ l ∈ leaves, ∃ m ∈ (f (leafRest l)).items, l' = l ++ [m] := by
  intro leaves
  induction leaves with
  | nil =>
    intro nl hstep l' hl'
    simp only [stepLeaves] at hstep
    cases hstep
    simp at hl'
  | cons leaf rest ih =>
    intro nl hstep l' hl'
    simp only [stepLeaves] at hstep
    split at hstep
    · cases hstep
    · split at hstep
      · cases hstep
      · cases hstep
        rcases List.mem_append.mp hl' with h1 | h2
        · rcases List.mem_map.mp h1 with ⟨m, hm, rfl⟩
          exact ⟨leaf, List.mem_cons_self leaf rest, m, hm, rfl⟩
        · rcases ih (by assumption) l' h2 with ⟨l, hl, m, hm, rfl⟩
          exact ⟨l, List.mem_cons_of_mem leaf hl, m, hm, rfl⟩

lemma seqLoop_chain (fuel : Nat) (s : Str) :
    ∀ (cs done : List Spec) (leaves res : List (List PMatch)),
      (∀ l ∈ leaves, l ≠ [] ∧ SChainE fuel done s l (leafRest l)) →
      seqLoop (cs.map (fun c => matchSpec fuel c)) leaves = Except.ok res →
      ∀ l' ∈ res, l' ≠ [] ∧ SChainE fuel (done ++ cs) s l' (leafRest l') := by
  intro cs
  induction cs with
  | nil =>
    intro done leaves res hinv hloop
    simp only [List.map_nil, seqLoop] at hloop
    cases hloop
    simpa using hinv
  | cons c cs ih =>
    intro done leaves res hinv hloop
    simp only [List.map_cons, seqLoop] at hloop
    split at hloop
    · cases hloop
    · rename_i nl hstep
      intro l' hl'
      have hinv2 : ∀ l0 ∈ nl, l0 ≠ [] ∧ SChainE fuel (done ++ [c]) s l0 (leafRest l0) := by
        intro l0 hl0
        rcases stepLeaves_mem hstep l0 hl0 with ⟨l, hl, m, hm, rfl⟩
        rcases hinv l hl with ⟨hne, hch⟩
        refine ⟨by simp, ?_⟩
        rw [leafRest_append_singleton]
        exact SChainE_snoc fuel c done s l (leafRest l) m hch hm
      have h2 := ih (done ++ [c]) nl res hinv2 hloop l' hl'
      rwa [List.append_assoc] at h2

/-- C6: every Match yielded by a Sequence with a non-empty child list
arises from one admissible match per child — each child matched against
the previous child's rest, starting from the input — with `captured`
the in-order concatenation of the children's captured texts,
`converted` the ordered list of the children's converted values with
every non-capturing marker dropped, and `rest` the last child's rest
(this is the ending remainder the chain predicate carries). -/
theorem c6_sequence_results (fuel : Nat) (c : Spec) (cs : List Spec) (s : Str) :
    ∀ m ∈ (matchSpec (fuel + 1) (Spec.Sequence (c :: cs)) s).items,
      ∃ ms : List PMatch, SChainE fuel (c :: cs) s ms m.rest ∧
        m.captured = joinCaps ms ∧
        m.converted = Val.ofList (filterConv ms) := by
  intro m hm
  rw [matchSpec_sequence] at hm
  rcases mem_pappend hm with h1 | h2
  · simp at h1
  · simp only [List.map_cons, breadthFirstGo] at h2
    split at h2
    · simp at h2
    · split at h2
      · simp at h2
      · rename_i leaves hseq
        rcases List.mem_map.mp h2 with ⟨l, hl, rfl⟩
        have hinit : ∀ l₀ ∈ ((matchSpec fuel c s).items).map (fun m₀ => [m₀]),
            l₀ ≠ [] ∧ SChainE fuel [c] s l₀ (leafRest l₀) := by
          intro l₀ hl₀
          rcases List.mem_map.mp hl₀ with ⟨m₀, hm₀, rfl⟩
          exact ⟨by simp, hm₀, rfl⟩
        rcases seqLoop_chain fuel s cs [c] _ leaves hinit hseq l hl with ⟨hne, hch⟩
        refine ⟨l, ?_, rfl, rfl⟩
        have hr : (assembleMatch s l).rest = leafRest l := histRest_eq_leafRest s hne
        rw [hr]
        exact hch

/-- C6 witness: the chain decomposition instantiated at
`Sequence([Integer, Integer])` on `"42 15 hello"` and its yielded Match
`([42, 15], "42 15", " hello")`. -/
theorem c6_witness :
    (⟨Val.ofList [Val.int 42, Val.int 15], "42 15".toList, " hello".toList⟩ : PMatch)
        ∈ (matchSpec 2 (Spec.Sequence [Spec.Integer, Spec.Integer])
            ("42 15 hello".toList)).items ∧
    ∃ ms : List PMatch,
      SChainE 1 [Spec.Integer, Spec.Integer] ("42 15 hello".toList) ms
          (⟨Val.ofList [Val.int 42, Val.int 15], "42 15".toList, " hello".toList⟩ : PMatch).rest ∧
      (⟨Val.ofList [Val.int 42, Val.int 15], "42 15".toList, " hello".toList⟩ : PMatch).captured
          = joinCaps ms ∧
      (⟨Val.ofList [Val.int 42, Val.int 15], "42 15".toList, " hello".toList⟩ : PMatch).converted
          = Val.ofList (filterConv ms) :=
  ⟨by decide,
    c6_sequence_results 1 Spec.Integer [Spec.Integer] ("42 15 hello".toList) _ (by decide)⟩

/-! ### C9: Sequence enumerates in nested-loop (lexicographic) order -/

lemma stepLeaves_of_err_none {f : Str → PRes PMatch} (Hf : ∀ t, (f t).err = none) :
    ∀ leaves : List (List PMatch),
      stepLeaves f leaves
        = Except.ok (leaves.flatMap (fun l => ((f (leafRest l)).items).map (fun m => l ++ [m]))) := by
  intro leaves
  induction leaves with
  | nil => rfl
  | cons leaf rest ih =>
    simp only [stepLeaves, Hf (leafRest leaf), ih]
    rfl

lemma seqLoop_flat (fuel : Nat) :
    ∀ (cs : List Spec), (∀ c ∈ cs, ∀ t : Str, (matchSpec fuel c t).err = none) →
      ∀ leaves : List (List PMatch),
        seqLoop (cs.map (fun c => matchSpec fuel c)) leaves
          = Except.ok (leaves.flatMap
              (fun l => (lexChains fuel cs (leafRest l)).map (fun ch => l ++ ch))) := by
  intro cs
  induction cs with
  | nil =>
    intro _ leaves
    simp only [List.map_nil, seqLoop, lexChains]
    congr 1
    induction leaves with
    | nil => rfl
    | cons l ls ihl =>
      show l :: ls = ([l ++ []]) ++ ls.flatMap _
      rw [List.append_nil]
      show l :: ls = l :: ls.flatMap _
      rw [← ihl]
  | cons c cs ih =>
    intro H leaves
    have hc : ∀ t : Str, (matchSpec fuel c t).err = none :=
      fun t => H c (List.mem_cons_self c cs) t
    simp only [List.map_cons, seqLoop, stepLeaves_of_err_none hc leaves]
    rw [ih (fun c' hc' t => H c' (List.mem_cons_of_mem c hc') t)]
    congr 1
    rw [List.flatMap_assoc]
    congr 1
    funext l
    rw [List.flatMap_map]
    show _ = (lexChains fuel (c :: cs) (leafRest l)).map (fun ch => l ++ ch)
    show _ = (((matchSpec fuel c (leafRest l)).items).flatMap
        (fun m => (lexChains fuel cs m.rest).map (fun ch => m :: ch))).map (fun ch => l ++ ch)
    rw [List.map_flatMap]
    congr 1
    funext m
    rw [List.map_map, leafRest_append_singleton]
    congr 1
    funext ch
    show (l ++ [m]) ++ ch = l ++ (m :: ch)
    rw [List.append_assoc]
    rfl

/-- C9: for a non-empty child list whose children all enumerate without
raising, `Sequence` yields its results exactly in nested-loop
(lexicographic) order over the children's own enumeration orders —
earlier children varying slower — i.e. the breadth-first frontier
produces the same list, in the same order, as the depth-first
nested-loop enumeration `lexChains`, in particular the combination of
every child's first admissible match comes first. -/
theorem c9_sequence_lex_order (fuel : Nat) (c : Spec) (cs : List Spec) (s : Str)
    (H : ∀ sp ∈ c :: cs, ∀ t : Str, (matchSpec fuel sp t).err = none) :
    (matchSpec (fuel + 1) (Spec.Sequence (c :: cs)) s).items
      = (lexChains fuel (c :: cs) s).map (assembleMatch s) := by
  rw [matchSpec_sequence]
  have hne : (c :: cs).isEmpty = false := rfl
  rw [hne]
  have hc : (matchSpec fuel c s).err = none := H c (List.mem_cons_self c cs) s
  have hflat := seqLoop_flat fuel cs
    (fun c' hc' t => H c' (List.mem_cons_of_mem c hc') t)
    (((matchSpec fuel c s).items).map (fun m => [m]))
  simp only [if_false, List.map_cons, breadthFirstGo, hc, hflat]
  rw [pappend_of_none _ rfl]
  show ((((matchSpec fuel c s).items).map (fun m => [m])).flatMap
      (fun l => (lexChains fuel cs (leafRest l)).map (fun ch => l ++ ch))).map (assembleMatch s)
    = _
  rw [List.flatMap_map]
  show (((matchSpec fuel c s).items).flatMap
      (fun m => (lexChains fuel cs m.rest).map (fun ch => [m] ++ ch))).map (assembleMatch s)
    = _
  rfl

/-- C9 witness: the nested-loop enumeration order instantiated at
`Sequence([Integer, Integer])` on `"42 15 hello"`, with the
no-exception hypothesis discharged for the `Integer` children. -/
theorem c9_witness :
    (matchSpec 2 (Spec.Sequence [Spec.Integer, Spec.Integer]) ("42 15 hello".toList)).items
      = (lexChains 1 [Spec.Integer, Spec.Integer] ("42 15 hello".toList)).map
          (assembleMatch ("42 15 hello".toList)) :=
  c9_sequence_lex_order 1 Spec.Integer [Spec.Integer] ("42 15 hello".toList)
    (by
      intro sp hsp t
      rcases List.mem_cons.mp hsp with rfl | hsp
      · rfl
      · rcases List.mem_singleton.mp hsp with rfl
        rfl)

/-! ### C8: termination of ZeroOrMore under strict shrinking -/

lemma traverseGo_stable {F : Str → PRes PMatch}
    (Hshrink : ∀ t m, m ∈ (F t).items → m.rest.length < t.length) :
    ∀ (n : Nat) (t : Str) (h : List PMatch) (a b : Nat),
      t.length ≤ n → n < a → n < b →
      traverseGo F a t h = traverseGo F b t h := by
  intro n
  induction n with
  | zero =>
    intro t h a b hlen ha hb
    cases a with
    | zero => omega
    | succ a' =>
      cases b with
      | zero => omega
      | succ b' =>
        rw [traverseGo_succ, traverseGo_succ]
        have hni : (F t).items = [] := by
          cases hFt : (F t).items with
          | nil => rfl
          | cons m ms =>
            have := Hshrink t m (by rw [hFt]; exact List.mem_cons_self m ms)
            omega
        rw [hni]
        rfl
  | succ n ih =>
    intro t h a b hlen ha hb
    cases a with
    | zero => omega
    | succ a' =>
      cases b with
      | zero => omega
      | succ b' =>
        rw [traverseGo_succ, traverseGo_succ]
        congr 1
        apply pconcatMapErr_congr
        intro m hm
        have hr := Hshrink t m hm
        exact ih m.rest (h ++ [m]) a' b' (by omega) (by omega) (by omega)

lemma traverseGo_no_outOfFuel {F : Str → PRes PMatch}
    (Hshrink : ∀ t m, m ∈ (F t).items → m.rest.length < t.length)
    (Hnf : ∀ t, (F t).err ≠ some PErr.outOfFuel) :
    ∀ (n : Nat) (t : Str) (h : List PMatch) (a : Nat),
      t.length ≤ n → n < a →
      (traverseGo F a t h).err ≠ some PErr.outOfFuel := by
  intro n
  induction n with
  | zero =>
    intro t h a hlen ha
    cases a with
    | zero => omega
    | succ a' =>
      rw [traverseGo_succ]
      have hni : (F t).items = [] := by
        cases hFt : (F t).items with
        | nil => rfl
        | cons m ms =>
          have := Hshrink t m (by rw [hFt]; exact List.mem_cons_self m ms)
          omega
      rw [hni]
      show (F t).err ≠ some PErr.outOfFuel
      exact Hnf t
  | succ n ih =>
    intro t h a hlen ha
    cases a with
    | zero => omega
    | succ a' =>
      rw [traverseGo_succ]
      show (pconcatMapErr (fun m => traverseGo F a' m.rest (h ++ [m]))
          (F t).items (F t).err).err ≠ some PErr.outOfFuel
      apply pconcatMapErr_err_ne
      · intro m hm
        exact ih m.rest (h ++ [m]) a' (by have := Hshrink t m hm; omega) (by omega)
      · exact Hnf t

/-- C8: if every Match yielded by the subspec `X` (at any fuel) has a
rest strictly shorter than the input, and `X` itself is a terminating,
fuel-independent matcher above some depth `d` (its enumeration
stabilizes and never reports fuel exhaustion), then
`ZeroOrMore(X).match(s)` terminates: above fuel `d + |s| + 1` the whole
enumeration is fuel-independent — hence a single finite list of results
— and never reports fuel exhaustion. -/
theorem c8_zeroOrMore_terminates (X : Spec) (d : Nat)
    (Hstable : ∀ f g : Nat, ∀ t : Str, d ≤ f → d ≤ g →
      matchSpec f X t = matchSpec g X t)
    (Hshrink : ∀ f : Nat, ∀ t : Str, ∀ m ∈ (matchSpec f X t).items,
      m.rest.length < t.length)
    (Hnf : ∀ f : Nat, ∀ t : Str, d ≤ f →
      (matchSpec f X t).err ≠ some PErr.outOfFuel) :
    ∀ (s : Str) (f g : Nat), d + s.length + 1 ≤ f → d + s.length + 1 ≤ g →
      matchSpec (f + 1) (Spec.ZeroOrMore X) s = matchSpec (g + 1) (Spec.ZeroOrMore X) s ∧
      (matchSpec (f + 1) (Spec.ZeroOrMore X) s).err ≠ some PErr.outOfFuel := by
  intro s f g hf hg
  rw [matchSpec_zeroOrMore, matchSpec_zeroOrMore]
  have hFeq : matchSpec g X = matchSpec f X :=
    funext (fun t => Hstable g f t (by omega) (by omega))
  constructor
  · rw [hFeq]
    congr 1
    exact traverseGo_stable (Hshrink f) s.length s [] f g (Nat.le_refl _)
      (by omega) (by omega)
  · show (traverseGo (matchSpec f X) f s []).err ≠ some PErr.outOfFuel
    exact traverseGo_no_outOfFuel (Hshrink f) (fun t => Hnf f t (by omega))
      s.length s [] f (Nat.le_refl _) (by omega)

lemma matchSpec_integer_stable : ∀ f g : Nat, ∀ t : Str, 1 ≤ f → 1 ≤ g →
    matchSpec f Spec.Integer t = matchSpec g Spec.Integer t := by
  intro f g t hf hg
  cases f with
  | zero => omega
  | succ f' =>
    cases g with
    | zero => omega
    | succ g' => rfl

lemma matchSpec_integer_shrinks : ∀ f : Nat, ∀ t : Str,
    ∀ m ∈ (matchSpec f Spec.Integer t).items, m.rest.length < t.length := by
  intro f t m hm
  cases f with
  | zero => simp [matchSpec_zero] at hm
  | succ f' =>
    rw [matchSpec_integer] at hm
    exact integerMatch_rest_length (mem_option_toList hm)

lemma matchSpec_integer_no_fuel_err : ∀ f : Nat, ∀ t : Str, 1 ≤ f →
    (matchSpec f Spec.Integer t).err ≠ some PErr.outOfFuel := by
  intro f t hf
  cases f with
  | zero => omega
  | succ f' =>
    rw [matchSpec_integer]
    simp

/-- C8 witness: the termination theorem instantiated at `X = Integer`
(depth 1) and input `"1 2"`, the hypotheses discharged by the three
Integer lemmas. -/
theorem c8_witness :
    matchSpec 6 (Spec.ZeroOrMore Spec.Integer) ("1 2".toList)
        = matchSpec 7 (Spec.ZeroOrMore Spec.Integer) ("1 2".toList) ∧
    (matchSpec 6 (Spec.ZeroOrMore Spec.Integer) ("1 2".toList)).err
        ≠ some PErr.outOfFuel :=
  c8_zeroOrMore_terminates Spec.Integer 1 matchSpec_integer_stable
    matchSpec_integer_shrinks matchSpec_integer_no_fuel_err
    ("1 2".toList) 5 6 (by decide) (by decide)

end Arcopa
